import Mathlib

/-!
Shallow embedding of the versioned-ingestion and hybrid-retrieval core of the
knowledge-base service:

* temporal recency scoring and token chunking (app/services/chunking_service.py),
* document upload versioning and duplicate detection (app/api/documents.py),
* semantic search with hybrid ranking, result cache and the filtered search
  variant (app/services/search_service.py).

Texts handed to the regex-based temporal scorer are modelled as their list of
lowercased words (the code lowercases the text before matching and every
pattern is word-bounded), token streams handed to the chunker as lists over an
arbitrary token type, and the database as explicit lists of document and chunk
records.  Scores are exact rationals.
-/

/-! ### Temporal recency scoring (chunking_service.detect_temporal_indicators) -/

/-- A word-bounded keyword pattern: either a single word with alternative
forms (e.g. `\bcurrent(?:ly)?\b` has forms `current`, `currently`) or a
multi-word phrase (e.g. `\bas of now\b`). -/
inductive Pat where
  | word (forms : List String)
  | phrase (ws : List String)

/-- Whether the word sequence `ph` occurs contiguously inside `t`. -/
def containsPhrase (t ph : List String) : Bool :=
  (List.range (t.length + 1)).any (fun i => ph.isPrefixOf (t.drop i))

/-- Whether a pattern matches the lowercased word list `t`. -/
def patMatch (t : List String) : Pat → Bool
  | .word fs => fs.any (fun f => t.contains f)
  | .phrase p => containsPhrase t p

/-- The `current_patterns` table of `detect_temporal_indicators`, with its
weights (0.9, 0.9, 0.85, 0.85, 0.8, 0.9, 0.85, 0.8, 0.75, 0.7). -/
def current_patterns : List (Pat × ℚ) :=
  [ (.word ["current", "currently"], 9/10),
    (.word ["latest"], 9/10),
    (.word ["now"], 85/100),
    (.word ["today"], 85/100),
    (.word ["present"], 8/10),
    (.phrase ["as", "of", "now"], 9/10),
    (.word ["updated"], 85/100),
    (.word ["recent", "recently"], 8/10),
    (.word ["active"], 75/100),
    (.word ["effective"], 7/10) ]

/-- The `historical_patterns` table of `detect_temporal_indicators`, with its
weights (0.3, 0.2, 0.25, 0.4, 0.3, 0.1, 0.1, 0.1, 0.1). -/
def historical_patterns : List (Pat × ℚ) :=
  [ (.word ["previous", "previously"], 3/10),
    (.word ["old"], 2/10),
    (.word ["former", "formerly"], 25/100),
    (.word ["was"], 4/10),
    (.word ["past"], 3/10),
    (.word ["archived"], 1/10),
    (.word ["deprecated"], 1/10),
    (.word ["expired"], 1/10),
    (.word ["obsolete"], 1/10) ]

/-- Mutable state threaded through the two pattern loops of
`detect_temporal_indicators`: the flags of the `temporal_info` dict, the
number of keywords appended so far, and the local `max_score` variable. -/
structure TScan where
  hasTemporal : Bool
  is_current : Bool
  is_historical : Bool
  kwCount : ℕ
  score : ℚ
deriving Repr, DecidableEq

/-- One iteration of the loop over `current_patterns`:
`score = max(score, weight)` on a match. -/
def scanCurrent (t : List String) (st : TScan) (pw : Pat × ℚ) : TScan :=
  if patMatch t pw.1 then
    { st with hasTemporal := true, is_current := true,
              kwCount := st.kwCount + 1, score := max st.score pw.2 }
  else st

/-- One iteration of the loop over `historical_patterns`:
`score = min(score, weight)` on a match, but only when no current pattern
matched (`if not temporal_info["is_current"]`). -/
def scanHistorical (t : List String) (st : TScan) (pw : Pat × ℚ) : TScan :=
  if patMatch t pw.1 then
    { st with hasTemporal := true, is_historical := true,
              kwCount := st.kwCount + 1,
              score := if st.is_current then st.score else min st.score pw.2 }
  else st

/-- Result record of `detect_temporal_indicators`. -/
structure TemporalInfo where
  has_temporal_indicator : Bool
  recency_score : ℚ
  keywordCount : ℕ
  is_current : Bool
  is_historical : Bool
  confidence : String
deriving Repr, DecidableEq

/-- `chunking_service.detect_temporal_indicators`: start at `score = 0.5`,
take the max with each matching current weight, then the min with each
matching historical weight unless some current pattern matched; confidence by
total number of matched keywords. -/
def detect_temporal_indicators (t : List String) : TemporalInfo :=
  let st0 : TScan :=
    { hasTemporal := false, is_current := false, is_historical := false,
      kwCount := 0, score := 1/2 }
  let st1 := current_patterns.foldl (scanCurrent t) st0
  let st2 := historical_patterns.foldl (scanHistorical t) st1
  { has_temporal_indicator := st2.hasTemporal
    recency_score := st2.score
    keywordCount := st2.kwCount
    is_current := st2.is_current
    is_historical := st2.is_historical
    confidence :=
      if st2.kwCount ≥ 2 then "high"
      else if st2.kwCount = 1 then "medium"
      else "low" }

/-- Fold `score = max(score, w)` over the matching patterns of a table. -/
def maxMatched (t : List String) (ps : List (Pat × ℚ)) (s0 : ℚ) : ℚ :=
  ps.foldl (fun s pw => if patMatch t pw.1 then max s pw.2 else s) s0

/-- Fold `score = min(score, w)` over the matching patterns of a table. -/
def minMatched (t : List String) (ps : List (Pat × ℚ)) (s0 : ℚ) : ℚ :=
  ps.foldl (fun s pw => if patMatch t pw.1 then min s pw.2 else s) s0

/-! ### Token chunking (chunking_service.chunk_text) -/

/-- The `while start < len(tokens)` loop of `chunk_text`: emit
`tokens[start : start + cs]`, advance `start` to `start + cs - ov`, and stop
as soon as the new start is at or past the end.  The recursion is paced by a
fuel counter; since `start` grows by at least one per iteration whenever
`ov < cs`, fuel `tokens.length` is never exhausted (for `ov ≥ cs` the Python
loop does not terminate at all). -/
def chunkGo (cs ov : ℕ) (tokens : List α) : ℕ → ℕ → List (List α)
  | 0, _ => []
  | fuel + 1, start =>
    if start < tokens.length then
      ((tokens.drop start).take cs) ::
        (if tokens.length ≤ start + cs - ov then []
         else chunkGo cs ov tokens fuel (start + cs - ov))
    else []

/-- `chunking_service.chunk_text`, at the level of the encoded token list
(`tiktoken` encoding/decoding is the out-of-scope tokenizer). -/
def chunk_text (cs ov : ℕ) (tokens : List α) : List (List α) :=
  chunkGo cs ov tokens tokens.length 0

/-! ### Document upload versioning (api/documents.upload_document) -/

/-- A row of the `documents` table, restricted to the columns the upload path
reads or writes (`document_metadata` is represented by its
`previous_version` entry). -/
structure Doc where
  id : ℕ
  filename : String
  content_hash : String
  file_size : ℕ
  version : ℕ
  is_active : Bool
  replaced_at : Option ℕ
  prev_version : Option ℕ
deriving Repr, DecidableEq

/-- A row of the `document_chunks` table, restricted to the columns the
upload path touches. -/
structure Chunk where
  id : ℕ
  document_id : ℕ
  is_active : Bool
  replaced_at : Option ℕ
deriving Repr, DecidableEq

/-- Database state: the two tables plus the autoincrement counter that hands
out the next primary key. -/
structure DB where
  docs : List Doc
  chunks : List Chunk
  nextId : ℕ
deriving Repr, DecidableEq

/-- The `status` field of the `UploadResponse` returned by
`upload_document`, together with the `document_id` it carries. -/
inductive UploadOutcome where
  | processing (docId : ℕ)
  | updated (docId : ℕ) (version : ℕ)
  | no_change (docId : ℕ)
  | duplicate (docId : ℕ)
deriving Repr, DecidableEq

/-- The empty database. -/
def DB.empty : DB := { docs := [], chunks := [], nextId := 0 }

/-- `api/documents.upload_document`, after the file has been streamed and
hashed: the duplicate/version decision and its database effect.  `now` is the
`datetime.utcnow()` timestamp used for `replaced_at`.
Steps 3-5 of the source in order: look for an active document with the same
filename (`no_change` on equal hash, otherwise deactivate it and its active
chunks and insert version `old.version + 1` referencing the old id); else look
for an active document with the same content hash (`duplicate`, no mutation);
else insert a fresh version-1 document.

`deactivateDoc` is the row update `existing.is_active = False;
existing.replaced_at = now` applied to the table (the row is addressed by its
primary key). -/
def deactivateDoc (did now : ℕ) (x : Doc) : Doc :=
  if x.id == did then { x with is_active := false, replaced_at := some now }
  else x

/-- The `db.query(DocumentChunk).filter(document_id == old.id,
is_active == True).update(...)` soft delete of the old version's chunks. -/
def deactivateChunk (did now : ℕ) (c : Chunk) : Chunk :=
  if c.document_id == did && c.is_active then
    { c with is_active := false, replaced_at := some now }
  else c

def upload_document (st : DB) (fn hash : String) (size now : ℕ) :
    DB × UploadOutcome :=
  match st.docs.find? (fun d => d.filename == fn && d.is_active) with
  | some d =>
    if d.content_hash == hash then
      (st, .no_change d.id)
    else
      let newDoc : Doc :=
        { id := st.nextId, filename := fn, content_hash := hash,
          file_size := size, version := d.version + 1, is_active := true,
          replaced_at := none, prev_version := some d.id }
      ({ docs := st.docs.map (deactivateDoc d.id now) ++ [newDoc],
         chunks := st.chunks.map (deactivateChunk d.id now),
         nextId := st.nextId + 1 },
       .updated st.nextId (d.version + 1))
  | none =>
    match st.docs.find? (fun d => d.content_hash == hash && d.is_active) with
    | some e => (st, .duplicate e.id)
    | none =>
      let newDoc : Doc :=
        { id := st.nextId, filename := fn, content_hash := hash,
          file_size := size, version := 1, is_active := true,
          replaced_at := none, prev_version := none }
      ({ docs := st.docs ++ [newDoc], chunks := st.chunks,
         nextId := st.nextId + 1 },
       .processing st.nextId)

/-- At most one active document per filename. -/
def ActiveUnique (st : DB) : Prop :=
  ∀ fn : String,
    (st.docs.filter (fun d => d.filename == fn && d.is_active)).length ≤ 1

/-- Database well-formedness: the per-filename active-uniqueness invariant
plus primary-key discipline (distinct ids, all below the counter). -/
def DBInv (st : DB) : Prop :=
  ActiveUnique st ∧
  st.docs.Pairwise (fun a b => a.id ≠ b.id) ∧
  ∀ d ∈ st.docs, d.id < st.nextId

/-- `N` successive uploads of one filename, folding `upload_document` over a
list of content hashes. -/
def uploadSeq (fn : String) (hashes : List String) (size now : ℕ)
    (st : DB) : DB :=
  hashes.foldl (fun s h => (upload_document s fn h size now).1) st

/-! ### Semantic search (services/search_service.py) -/

/-- A row fetched by the pgvector query of `semantic_search`: the columns the
Python code consumes afterwards.  `recency` is the nullable `recency_score`
column; `metadataOk` records whether the per-row Python processing (tuple
unpacking and the `metadata.get` calls) succeeds or raises. -/
structure Row where
  chunk_id : ℕ
  sim : ℚ
  recency : Option ℚ
  metadataOk : Bool
deriving Repr, DecidableEq

/-- A search result as assembled by `semantic_search` (the fields the ranking
uses). -/
structure SearchResult where
  chunk_id : ℕ
  similarity : ℚ
  recency_score : ℚ
  hybrid_score : ℚ
deriving Repr, DecidableEq

/-- The `hybrid_score` computation: the blend only applies when
`use_recency_boost and recency_score is not None`. -/
def hybridScore (useBoost : Bool) (w : ℚ) (r : Row) : ℚ :=
  match r.recency with
  | some rc => if useBoost then r.sim * (1 - w) + rc * w else r.sim
  | none => r.sim

/-- The `recency_score` field of a result:
`float(recency_score) if recency_score else 0.5`, where Python treats both
`None` and `0.0` as falsy. -/
def resultRecency (r : Row) : ℚ :=
  match r.recency with
  | some rc => if rc = 0 then 1/2 else rc
  | none => 1/2

/-- The per-row loop of `semantic_search` (step 3): skip rows below the
similarity threshold (`continue`), skip rows whose processing raises (the
inner `try/except` logs and continues), otherwise build the result record. -/
def processRows (rows : List Row) (θ : ℚ) (useBoost : Bool) (w : ℚ) :
    List SearchResult :=
  rows.filterMap (fun r =>
    if r.sim < θ then none
    else if r.metadataOk then
      some { chunk_id := r.chunk_id, similarity := r.sim,
             recency_score := resultRecency r,
             hybrid_score := hybridScore useBoost w r }
    else none)

/-- `search_results.sort(key=lambda x: x["hybrid_score"], reverse=True)`:
stable descending sort by hybrid score. -/
def sortByHybrid (l : List SearchResult) : List SearchResult :=
  l.mergeSort (fun a b => decide (b.hybrid_score ≤ a.hybrid_score))

/-- `search_limit = top_k * 3 if use_recency_boost else top_k` (step 2 of
`semantic_search`): the LIMIT passed to the pgvector query. -/
def search_limit (top_k : ℕ) (useBoost : Bool) : ℕ :=
  if useBoost then top_k * 3 else top_k

/-- The search cache `_search_cache`, in insertion order (Python dicts
preserve it), with `_cache_max_size = 100`. -/
abbrev Cache := List (String × List SearchResult)

/-- `_cache_max_size`. -/
def cache_max_size : ℕ := 100

/-- Cache lookup by key. -/
def cacheLookup (c : Cache) (k : String) : Option (List SearchResult) :=
  (c.find? (fun e => e.1 == k)).map (fun e => e.2)

/-- The cache write at the end of `semantic_search`: when the cache is full,
`_search_cache.pop(next(iter(_search_cache)))` evicts the earliest-inserted
entry, then the new entry is appended. -/
def cacheInsert (c : Cache) (k : String) (v : List SearchResult) : Cache :=
  (if cache_max_size ≤ c.length then c.drop 1 else c) ++ [(k, v)]

/-- `search_service.semantic_search`, over a database/provider oracle
`fetch`: called with the computed LIMIT, it returns either the fetched rows
(in ascending embedding-distance order, as the SQL `ORDER BY` produces them)
or the exception raised by query embedding or by the vector-store query.
Returns the result list together with the cache state after the call; any
exception escaping to the outer handler yields `[]` and writes no cache
entry. -/
def semantic_search (cache : Cache) (key : String)
    (fetch : ℕ → Except String (List Row))
    (top_k : ℕ) (useBoost : Bool) (w θ : ℚ) :
    List SearchResult × Cache :=
  match cacheLookup cache key with
  | some v => (v, cache)
  | none =>
    match fetch (search_limit top_k useBoost) with
    | .error _ => ([], cache)
    | .ok rows =>
      if rows.isEmpty then ([], cache)
      else
        let final := (sortByHybrid (processRows rows θ useBoost w)).take top_k
        (final, cacheInsert cache key final)

/-- A result of `semantic_search_with_filters` (no hybrid score is ever
computed on this path). -/
structure FilteredResult where
  chunk_id : ℕ
  similarity : ℚ
  recency_score : ℚ
deriving Repr, DecidableEq

/-- Descending lexicographic order on `(similarity, recency_score)`, the sort
key of the filtered variant (`reverse=True` over Python tuple comparison). -/
def lexGeBool (a b : FilteredResult) : Bool :=
  decide (b.similarity < a.similarity ∨
    (a.similarity = b.similarity ∧ b.recency_score ≤ a.recency_score))

/-- `search_service.semantic_search_with_filters`, over the same kind of
fetch oracle (the metadata filters are part of the SQL the oracle models, and
its LIMIT is always `top_k * 3`).  There is no inner per-row handler on this
path: a row whose processing raises aborts the whole loop, so the outer
handler returns `[]`.  Results are sorted by the tuple
`(similarity, recency_score)` descending and truncated. -/
def semantic_search_with_filters (fetch : ℕ → Except String (List Row))
    (top_k : ℕ) : List FilteredResult :=
  match fetch (top_k * 3) with
  | .error _ => []
  | .ok rows =>
    if rows.all (fun r => r.metadataOk) then
      ((rows.map (fun r =>
          { chunk_id := r.chunk_id, similarity := r.sim,
            recency_score := resultRecency r : FilteredResult })).mergeSort
        lexGeBool).take top_k
    else []

/-! ### Lemmas about the temporal scanner -/

/-- Effect of the whole `current_patterns` loop on the scan state: the score
accumulates `max` over the matching weights, and `is_current` records whether
any pattern matched. -/
lemma foldl_scanCurrent (t : List String) (ps : List (Pat × ℚ)) :
    ∀ st : TScan,
      (ps.foldl (scanCurrent t) st).score = maxMatched t ps st.score ∧
      (ps.foldl (scanCurrent t) st).is_current =
        (st.is_current || ps.any fun pw => patMatch t pw.1) := by
  induction ps with
  | nil => intro st; simp [maxMatched]
  | cons pw ps ih =>
    intro st
    by_cases h : patMatch t pw.1
    · have hs : scanCurrent t st pw =
        { st with hasTemporal := true, is_current := true,
                  kwCount := st.kwCount + 1, score := max st.score pw.2 } := by
        simp [scanCurrent, h]
      simp only [List.foldl_cons, List.any_cons, hs]
      refine ⟨((ih _).1).trans ?_, ((ih _).2).trans ?_⟩
      · simp [maxMatched, h]
      · simp [h]
    · have hs : scanCurrent t st pw = st := by simp [scanCurrent, h]
      simp only [List.foldl_cons, List.any_cons, hs]
      refine ⟨((ih _).1).trans ?_, ((ih _).2).trans ?_⟩
      · simp [maxMatched, h]
      · simp [h]

/-- Effect of the whole `historical_patterns` loop: `is_current` is left
untouched, and the score accumulates `min` over the matching weights only
when no current pattern matched. -/
lemma foldl_scanHistorical (t : List String) (ps : List (Pat × ℚ)) :
    ∀ st : TScan,
      (ps.foldl (scanHistorical t) st).is_current = st.is_current ∧
      (ps.foldl (scanHistorical t) st).score =
        (if st.is_current then st.score else minMatched t ps st.score) := by
  induction ps with
  | nil => intro st; simp [minMatched]
  | cons pw ps ih =>
    intro st
    by_cases h : patMatch t pw.1
    · have hs : scanHistorical t st pw =
        { st with hasTemporal := true, is_historical := true,
                  kwCount := st.kwCount + 1,
                  score := if st.is_current then st.score
                           else min st.score pw.2 } := by
        simp [scanHistorical, h]
      simp only [List.foldl_cons, hs]
      refine ⟨(ih _).1, ((ih _).2).trans ?_⟩
      by_cases hc : st.is_current
      · simp [hc]
      · simp [hc, minMatched, h]
    · have hs : scanHistorical t st pw = st := by simp [scanHistorical, h]
      simp only [List.foldl_cons, hs]
      refine ⟨(ih _).1, ((ih _).2).trans ?_⟩
      simp [minMatched, h]

/-- When no pattern of the table matches, the max-fold returns its seed. -/
lemma maxMatched_of_no_match (t : List String) (ps : List (Pat × ℚ))
    (h : (ps.any fun pw => patMatch t pw.1) = false) (s0 : ℚ) :
    maxMatched t ps s0 = s0 := by
  induction ps generalizing s0 with
  | nil => simp [maxMatched]
  | cons pw ps ih =>
    rw [List.any_cons, Bool.or_eq_false_iff] at h
    rw [maxMatched, List.foldl_cons, h.1]
    exact ih h.2 s0

/-- Claim C4: the temporal recency score starts at 0.5, takes
`score = max(score, weight)` for every matching current-pattern, and takes
`score = min(score, weight)` for matching historical-patterns only when no
current pattern matched at all; hence text with both a current keyword
("current") and a historical keyword ("previous") yields the current
keyword's weight 0.9, text with only "archived" yields the historical weight
0.1, and text matching neither table yields exactly 0.5. -/
theorem detect_temporal_recency_spec :
    (∀ t : List String,
      (detect_temporal_indicators t).recency_score =
        if current_patterns.any (fun pw => patMatch t pw.1) then
          maxMatched t current_patterns (1/2)
        else
          minMatched t historical_patterns (1/2)) ∧
    (detect_temporal_indicators ["current", "previous"]).recency_score
      = 9/10 ∧
    (detect_temporal_indicators ["archived"]).recency_score = 1/10 ∧
    (detect_temporal_indicators ["hello", "salary", "world"]).recency_score
      = 1/2 := by
  refine ⟨fun t => ?_, ?_, ?_, ?_⟩
  · show (historical_patterns.foldl (scanHistorical t)
      (current_patterns.foldl (scanCurrent t)
        { hasTemporal := false, is_current := false, is_historical := false,
          kwCount := 0, score := 1/2 })).score = _
    rw [(foldl_scanHistorical t historical_patterns _).2,
      (foldl_scanCurrent t current_patterns _).2,
      (foldl_scanCurrent t current_patterns _).1]
    by_cases h : current_patterns.any (fun pw => patMatch t pw.1)
    · simp [h]
    · rw [Bool.not_eq_true] at h
      simp only [h, Bool.false_or, if_neg Bool.false_ne_true, if_neg,
        Bool.false_eq_true, not_false_eq_true]
      rw [maxMatched_of_no_match t current_patterns h]
  · simp [detect_temporal_indicators, current_patterns, historical_patterns,
      scanCurrent, scanHistorical, patMatch,
      show containsPhrase ["current", "previous"] ["as", "of", "now"] = false
        from by decide]
    norm_num [max_def, min_def]
  · simp [detect_temporal_indicators, current_patterns, historical_patterns,
      scanCurrent, scanHistorical, patMatch,
      show containsPhrase ["archived"] ["as", "of", "now"] = false
        from by decide]
    norm_num [max_def, min_def]
  · simp [detect_temporal_indicators, current_patterns, historical_patterns,
      scanCurrent, scanHistorical, patMatch,
      show containsPhrase ["hello", "salary", "world"] ["as", "of", "now"]
        = false from by decide]

/-! ### Lemmas about the chunking loop -/

/-- The chunking loop does not depend on the fuel, as long as the fuel covers
the remaining tokens (the loop advances by at least one token per step when
`ov < cs`). -/
lemma chunkGo_fuel_stable (cs ov : ℕ) (tokens : List α) (hov : ov < cs) :
    ∀ f₁ f₂ start, tokens.length ≤ start + f₁ → tokens.length ≤ start + f₂ →
      chunkGo cs ov tokens f₁ start = chunkGo cs ov tokens f₂ start := by
  intro f₁
  induction f₁ with
  | zero =>
    intro f₂ start h₁ h₂
    have hstart : ¬ start < tokens.length := by omega
    cases f₂ with
    | zero => rfl
    | succ f₂ => simp [chunkGo, hstart]
  | succ f₁ ih =>
    intro f₂ start h₁ h₂
    by_cases hstart : start < tokens.length
    · cases f₂ with
      | zero => omega
      | succ f₂ =>
        simp only [chunkGo, if_pos hstart]
        by_cases hstop : tokens.length ≤ start + cs - ov
        · rw [if_pos hstop, if_pos hstop]
        · rw [if_neg hstop, if_neg hstop,
            ih f₂ (start + cs - ov) (by omega) (by omega)]
    · cases f₂ with
      | zero => simp [chunkGo, hstart]
      | succ f₂ => simp [chunkGo, hstart]

/-- Starting the loop at `start` is the same as starting it at 0 on the
suffix `tokens[start:]`. -/
lemma chunkGo_shift (cs ov : ℕ) (hov : ov < cs) :
    ∀ (fuel : ℕ) (tokens : List α) (start : ℕ),
      chunkGo cs ov tokens fuel start =
        chunkGo cs ov (tokens.drop start) fuel 0 := by
  intro fuel
  induction fuel with
  | zero => intro tokens start; rfl
  | succ fuel ih =>
    intro tokens start
    by_cases hstart : start < tokens.length
    · have hlen : (tokens.drop start).length = tokens.length - start := by
        simp
      have hstart' : 0 < (tokens.drop start).length := by omega
      simp only [chunkGo, if_pos hstart, if_pos hstart']
      have hwin : (tokens.drop start).take cs
          = ((tokens.drop start).drop 0).take cs := by simp
      rw [← hwin]
      by_cases hstop : tokens.length ≤ start + cs - ov
      · have hstop' : (tokens.drop start).length ≤ 0 + cs - ov := by omega
        rw [if_pos hstop, if_pos hstop']
      · have hstop' : ¬ (tokens.drop start).length ≤ 0 + cs - ov := by omega
        rw [if_neg hstop, if_neg hstop', ih tokens (start + cs - ov),
          ih (tokens.drop start) (0 + cs - ov)]
        have hdd : (tokens.drop start).drop (0 + cs - ov)
            = tokens.drop (start + cs - ov) := by
          rw [List.drop_drop]
          congr 1
          omega
        rw [hdd]
    · have hstart' : ¬ 0 < (tokens.drop start).length := by
        simp only [List.length_drop]
        omega
      simp only [chunkGo, if_neg hstart, if_neg hstart']

/-- Claim C7 (amended): zero-length input yields no chunks at all; a nonempty
input of at most `cs - ov` tokens yields exactly one chunk holding the whole
input; and a longer input emits the first `cs`-token window and then chunks
the suffix starting `cs - ov` tokens in, so the window advances by `cs - ov`
per step and the last partial window is still emitted. -/
theorem chunk_text_spec :
    (∀ (cs ov : ℕ), chunk_text cs ov ([] : List ℕ) = []) ∧
    (∀ {α : Type} (cs ov : ℕ) (l : List α), ov < cs →
      0 < l.length → l.length ≤ cs - ov → chunk_text cs ov l = [l]) ∧
    (∀ {α : Type} (cs ov : ℕ) (l : List α), ov < cs →
      cs - ov < l.length →
      chunk_text cs ov l = l.take cs :: chunk_text cs ov (l.drop (cs - ov)))
    := by
  refine ⟨fun cs ov => rfl, ?_, ?_⟩
  · intro α cs ov l hov hpos hshort
    show chunkGo cs ov l l.length 0 = [l]
    cases hl : l.length with
    | zero => omega
    | succ fuel =>
      simp only [chunkGo]
      rw [if_pos (by omega : (0:ℕ) < l.length)]
      rw [if_pos (by omega : l.length ≤ 0 + cs - ov)]
      simp [List.take_of_length_le (by omega : l.length ≤ cs)]
  · intro α cs ov l hov hlong
    show chunkGo cs ov l l.length 0
      = l.take cs :: chunkGo cs ov (l.drop (cs - ov)) (l.drop (cs - ov)).length 0
    cases hl : l.length with
    | zero => omega
    | succ fuel =>
      simp only [chunkGo]
      rw [if_pos (by omega : (0:ℕ) < l.length)]
      rw [if_neg (by omega : ¬ l.length ≤ 0 + cs - ov)]
      rw [chunkGo_shift cs ov hov fuel l (0 + cs - ov)]
      have h1 : (0:ℕ) + cs - ov = cs - ov := by omega
      rw [h1]
      rw [chunkGo_fuel_stable cs ov (l.drop (cs - ov)) hov fuel
        ((l.drop (cs - ov)).length) 0
        (by simp only [List.length_drop]; omega)
        (by simp only [List.length_drop]; omega)]
      simp

/-- Claim C7 is refuted as stated: with window 10 and overlap 5, the empty
token stream yields zero chunks (not one), and a 7-token input — shorter than
one window — yields two chunks (the whole input and a trailing overlap
window), not exactly one. -/
theorem chunk_text_short_input_refuted :
    chunk_text 10 5 ([] : List ℕ) = [] ∧
    chunk_text 10 5 [0, 1, 2, 3, 4, 5, 6]
      = [[0, 1, 2, 3, 4, 5, 6], [5, 6]] ∧
    ¬ (chunk_text 10 5 [0, 1, 2, 3, 4, 5, 6]).length = 1 := by
  decide

/-- Witness instantiating `chunk_text_spec`: a 12-token input with window 10
and overlap 5 emits the first window and then chunks the 5-token suffix, and
a 3-token input fits in a single chunk. -/
theorem chunk_text_spec_witness :
    chunk_text 10 5 [0, 1, 2, 3, 4, 5, 6, 7, 8, 9, 10, 11]
      = [0, 1, 2, 3, 4, 5, 6, 7, 8, 9, 10, 11].take 10 ::
        chunk_text 10 5 ([(0:ℕ), 1, 2, 3, 4, 5, 6, 7, 8, 9, 10, 11].drop 5) ∧
    chunk_text 10 5 [(0 : ℕ), 1, 2] = [[0, 1, 2]] := by
  constructor
  · exact chunk_text_spec.2.2 10 5 _ (by omega) (by decide)
  · exact chunk_text_spec.2.1 10 5 _ (by omega) (by decide) (by decide)

/-! ### Lemmas about list queries (`.first()` on filtered queries) -/

/-- If `x` satisfies `p`, belongs to `l`, and at most one element of `l`
satisfies `p`, then the first match is `x` itself. -/
lemma find?_eq_of_unique {α : Type} {p : α → Bool} {l : List α} {x : α}
    (hx : x ∈ l) (hpx : p x = true) (huniq : (l.filter p).length ≤ 1) :
    l.find? p = some x := by
  induction l with
  | nil => cases hx
  | cons a l ih =>
    by_cases hpa : p a
    · rw [List.find?_cons_of_pos _ hpa]
      rcases List.mem_cons.mp hx with rfl | hmem
      · rfl
      · exfalso
        have h1 : x ∈ l.filter p := List.mem_filter.mpr ⟨hmem, hpx⟩
        have h2 : 0 < (l.filter p).length := List.length_pos.mpr
          (fun he => by simp [he] at h1)
        rw [List.filter_cons_of_pos hpa] at huniq
        simp only [List.length_cons] at huniq
        omega
    · rw [List.find?_cons_of_neg _ hpa]
      rcases List.mem_cons.mp hx with rfl | hmem
      · exact absurd hpx hpa
      · rw [List.filter_cons_of_neg hpa] at huniq
        exact ih hmem huniq

/-- Two members of a list both satisfying `p` coincide when at most one
element satisfies `p`. -/
lemma eq_of_mem_of_filter_le_one {α : Type} {p : α → Bool} {l : List α}
    {x y : α} (hx : x ∈ l) (hpx : p x = true) (hy : y ∈ l)
    (hpy : p y = true) (huniq : (l.filter p).length ≤ 1) : x = y := by
  have h1 := find?_eq_of_unique hx hpx huniq
  have h2 := find?_eq_of_unique hy hpy huniq
  rw [h1] at h2
  exact Option.some.inj h2

/-- Mapping a list and filtering cannot produce more hits than filtering the
original with a pointwise-weaker predicate. -/
lemma length_filter_map_le {α β : Type} (f : α → β) (p : β → Bool)
    (q : α → Bool) (l : List α) (h : ∀ x ∈ l, p (f x) = true → q x = true) :
    ((l.map f).filter p).length ≤ (l.filter q).length := by
  induction l with
  | nil => simp
  | cons a l ih =>
    have ha := h a (List.mem_cons_self a l)
    have hrest : ∀ x ∈ l, p (f x) = true → q x = true :=
      fun x hx => h x (List.mem_cons_of_mem a hx)
    by_cases hpa : p (f a)
    · rw [List.map_cons, List.filter_cons_of_pos hpa,
        List.filter_cons_of_pos (ha hpa)]
      simpa using ih hrest
    · rw [List.map_cons, List.filter_cons_of_neg hpa]
      calc ((l.map f).filter p).length ≤ (l.filter q).length := ih hrest
        _ ≤ ((a :: l).filter q).length := by
            by_cases hqa : q a
            · rw [List.filter_cons_of_pos hqa]; simp
            · rw [List.filter_cons_of_neg hqa]

/-- Claim C2: uploading content whose hash equals the active same-filename
document's hash returns `no_change` carrying that document's id and performs
no mutation at all — the database state is returned untouched. -/
theorem upload_no_change_spec (st : DB) (fn h : String) (sz now : ℕ)
    (d : Doc) (hInv : DBInv st) (hd : d ∈ st.docs) (ha : d.is_active = true)
    (hfn : d.filename = fn) (hh : d.content_hash = h) :
    upload_document st fn h sz now = (st, .no_change d.id) := by
  have hfind : st.docs.find? (fun x => x.filename == fn && x.is_active)
      = some d :=
    find?_eq_of_unique hd (by simp [hfn, ha]) (hInv.1 fn)
  simp [upload_document, hfind, hh]

/-- A sample document row used to instantiate the upload theorems. -/
def sampleDoc : Doc :=
  { id := 0, filename := "a.txt", content_hash := "h1", file_size := 3,
    version := 1, is_active := true, replaced_at := none,
    prev_version := none }

/-- A one-document database used to instantiate the upload theorems. -/
def sampleDB : DB := { docs := [sampleDoc], chunks := [], nextId := 1 }

/-- `sampleDB` is well-formed. -/
lemma sampleDB_inv : DBInv sampleDB :=
  ⟨fun fn => (List.length_filter_le _ _).trans (by decide),
    by decide, by decide⟩

/-- Witness for `upload_no_change_spec`: re-uploading `a.txt` with its
current content hash `h1` changes nothing and reports the existing id 0. -/
theorem upload_no_change_witness :
    upload_document sampleDB "a.txt" "h1" 3 5
      = (sampleDB, .no_change 0) := by
  exact upload_no_change_spec sampleDB "a.txt" "h1" 3 5 sampleDoc
    sampleDB_inv (by decide) (by decide) (by decide) (by decide)

/-- Claim C3: when no active document carries the incoming filename but some
active document has the same content hash (necessarily under a different
filename), the upload returns `duplicate` referencing such an existing
document and leaves the database completely unchanged. -/
theorem upload_duplicate_spec (st : DB) (fn h : String) (sz now : ℕ)
    (hnofn : ∀ d ∈ st.docs, d.is_active = true → d.filename ≠ fn)
    (hdup : ∃ e ∈ st.docs, e.is_active = true ∧ e.content_hash = h) :
    (upload_document st fn h sz now).1 = st ∧
    ∃ e ∈ st.docs, e.is_active = true ∧ e.content_hash = h ∧
      e.filename ≠ fn ∧
      (upload_document st fn h sz now).2 = .duplicate e.id := by
  have hfind1 : st.docs.find? (fun x => x.filename == fn && x.is_active)
      = none := by
    rw [List.find?_eq_none]
    intro x hx
    simp only [Bool.and_eq_true, beq_iff_eq, not_and]
    exact fun hxfn hxact => absurd hxfn (hnofn x hx hxact)
  have hsome : (st.docs.find?
      (fun x => x.content_hash == h && x.is_active)).isSome := by
    rw [List.find?_isSome]
    obtain ⟨e, he, hact, hh⟩ := hdup
    exact ⟨e, he, by simp [hh, hact]⟩
  obtain ⟨e', he'⟩ := Option.isSome_iff_exists.mp hsome
  have he'mem := List.mem_of_find?_eq_some he'
  have he'p := List.find?_some he'
  simp only [Bool.and_eq_true, beq_iff_eq] at he'p
  refine ⟨?_, e', he'mem, he'p.2, he'p.1,
    hnofn e' he'mem he'p.2, ?_⟩
  · simp [upload_document, hfind1, he']
  · simp [upload_document, hfind1, he']

/-- A second sample database: the content of `a.txt` is also about to arrive
under the name `b.txt`. -/
def sampleDB2 : DB := { docs := [sampleDoc], chunks := [], nextId := 1 }

/-- Witness for `upload_duplicate_spec`: uploading the bytes of `a.txt`
(hash `h1`) under the new name `b.txt` mutates nothing and reports the
existing document. -/
theorem upload_duplicate_witness :
    (upload_document sampleDB2 "b.txt" "h1" 3 5).1 = sampleDB2 ∧
    ∃ e ∈ sampleDB2.docs, e.is_active = true ∧ e.content_hash = "h1" ∧
      e.filename ≠ "b.txt" ∧
      (upload_document sampleDB2 "b.txt" "h1" 3 5).2 = .duplicate e.id := by
  exact upload_duplicate_spec sampleDB2 "b.txt" "h1" 3 5
    (by decide) ⟨sampleDoc, by decide, by decide, by decide⟩

/-- Filtering a one-element list keeps at most one element. -/
lemma length_filter_singleton {α : Type} (p : α → Bool) (a : α) :
    ([a].filter p).length ≤ 1 := by
  by_cases hpa : p a <;> simp [List.filter_cons, hpa]

/-- Any single upload preserves database well-formedness: the per-filename
active-uniqueness invariant and primary-key discipline survive all four
branches of `upload_document`. -/
lemma DBInv_upload (st : DB) (fn h : String) (sz now : ℕ)
    (hInv : DBInv st) : DBInv (upload_document st fn h sz now).1 := by
  obtain ⟨hAU, hPW, hID⟩ := hInv
  cases hfind : st.docs.find? (fun x => x.filename == fn && x.is_active) with
  | some d =>
    have hdmem := List.mem_of_find?_eq_some hfind
    have hdp := List.find?_some hfind
    simp only [Bool.and_eq_true, beq_iff_eq] at hdp
    by_cases hh : d.content_hash = h
    · have hst : (upload_document st fn h sz now).1 = st := by
        simp [upload_document, hfind, hh]
      rw [hst]
      exact ⟨hAU, hPW, hID⟩
    · have hdocs : (upload_document st fn h sz now).1.docs
          = st.docs.map (deactivateDoc d.id now) ++
            [{ id := st.nextId, filename := fn, content_hash := h,
               file_size := sz, version := d.version + 1, is_active := true,
               replaced_at := none, prev_version := some d.id }] := by
        simp [upload_document, hfind, hh]
      have hnext : (upload_document st fn h sz now).1.nextId
          = st.nextId + 1 := by
        simp [upload_document, hfind, hh]
      have hfid : ∀ x : Doc, (deactivateDoc d.id now x).id = x.id := by
        intro x
        unfold deactivateDoc
        split <;> rfl
      refine ⟨?_, ?_, ?_⟩
      · intro fn'
        rw [hdocs, List.filter_append, List.length_append]
        by_cases hfn' : fn = fn'
        · subst hfn'
          have hmap0 : ((st.docs.map (deactivateDoc d.id now)).filter
              (fun x => x.filename == fn && x.is_active)).length = 0 := by
            have hle := length_filter_map_le (deactivateDoc d.id now)
              (fun x => x.filename == fn && x.is_active)
              (fun _ => false) st.docs ?_
            · simpa using hle
            · intro x hx hpfx
              exfalso
              by_cases hxid : x.id = d.id
              · simp [deactivateDoc, hxid] at hpfx
              · simp only [deactivateDoc, hxid, beq_iff_eq, if_false,
                  if_neg hxid] at hpfx
                have hxd : x = d := eq_of_mem_of_filter_le_one hx hpfx
                  hdmem (by simp [hdp.1, hdp.2]) (hAU fn)
                exact hxid (by rw [hxd])
          rw [hmap0]
          have hone := length_filter_singleton
            (fun x : Doc => x.filename == fn && x.is_active)
            ({ id := st.nextId, filename := fn, content_hash := h,
               file_size := sz, version := d.version + 1, is_active := true,
               replaced_at := none, prev_version := some d.id } : Doc)
          omega
        · have hnd1 : ∀ nd : Doc, nd.filename = fn →
              (([nd]).filter
                (fun x => x.filename == fn' && x.is_active)).length = 0 := by
            intro nd hnd
            simp [List.filter_cons, hnd, hfn']
          have hle : ((st.docs.map (deactivateDoc d.id now)).filter
              (fun x => x.filename == fn' && x.is_active)).length
              ≤ (st.docs.filter
                  (fun x => x.filename == fn' && x.is_active)).length := by
            apply length_filter_map_le
            intro x hx hpfx
            by_cases hxid : x.id = d.id
            · simp [deactivateDoc, hxid] at hpfx
            · simpa only [deactivateDoc, beq_iff_eq, if_neg hxid] using hpfx
          have := hAU fn'
          rw [hnd1 _ rfl]
          omega
      · rw [hdocs, List.pairwise_append]
        refine ⟨?_, by simp, ?_⟩
        · rw [List.pairwise_map]
          exact hPW.imp (fun hab => by simpa [hfid] using hab)
        · intro a ha b hb
          simp only [List.mem_singleton] at hb
          subst hb
          rcases List.mem_map.mp ha with ⟨x, hxmem, rfl⟩
          rw [hfid]
          exact Nat.ne_of_lt (hID x hxmem)
      · intro x hx
        rw [hnext]
        rw [hdocs] at hx
        rcases List.mem_append.mp hx with hx | hx
        · rcases List.mem_map.mp hx with ⟨y, hymem, rfl⟩
          rw [hfid]
          exact lt_trans (hID y hymem) (Nat.lt_succ_self _)
        · simp only [List.mem_singleton] at hx
          subst hx
          exact Nat.lt_succ_self _
  | none =>
    cases hfind2 : st.docs.find?
        (fun x => x.content_hash == h && x.is_active) with
    | some e =>
      have hst : (upload_document st fn h sz now).1 = st := by
        simp [upload_document, hfind, hfind2]
      rw [hst]
      exact ⟨hAU, hPW, hID⟩
    | none =>
      have hdocs : (upload_document st fn h sz now).1.docs
          = st.docs ++
            [{ id := st.nextId, filename := fn, content_hash := h,
               file_size := sz, version := 1, is_active := true,
               replaced_at := none, prev_version := none }] := by
        simp [upload_document, hfind, hfind2]
      have hnext : (upload_document st fn h sz now).1.nextId
          = st.nextId + 1 := by
        simp [upload_document, hfind, hfind2]
      refine ⟨?_, ?_, ?_⟩
      · intro fn'
        rw [hdocs, List.filter_append, List.length_append]
        by_cases hfn' : fn = fn'
        · subst hfn'
          have h0 : st.docs.filter (fun x => x.filename == fn && x.is_active)
              = [] := by
            rw [List.filter_eq_nil_iff]
            rw [List.find?_eq_none] at hfind
            exact hfind
          rw [h0]
          have hone := length_filter_singleton
            (fun x : Doc => x.filename == fn && x.is_active)
            ({ id := st.nextId, filename := fn, content_hash := h,
               file_size := sz, version := 1, is_active := true,
               replaced_at := none, prev_version := none } : Doc)
          simp only [List.length_nil]
          omega
        · have hnd1 : ∀ nd : Doc, nd.filename = fn →
              (([nd]).filter
                (fun x => x.filename == fn' && x.is_active)).length = 0 := by
            intro nd hnd
            simp [List.filter_cons, hnd, hfn']
          have := hAU fn'
          rw [hnd1 _ rfl]
          omega
      · rw [hdocs, List.pairwise_append]
        refine ⟨hPW, by simp, ?_⟩
        intro a ha b hb
        simp only [List.mem_singleton] at hb
        subst hb
        exact Nat.ne_of_lt (hID a ha)
      · intro x hx
        rw [hnext]
        rw [hdocs] at hx
        rcases List.mem_append.mp hx with hx | hx
        · exact lt_trans (hID x hx) (Nat.lt_succ_self _)
        · simp only [List.mem_singleton] at hx
          subst hx
          exact Nat.lt_succ_self _

/-- The shape of a database that has seen `k` content-changing uploads of one
filename and nothing else: the superseded versions precede the single active
head document, which carries version `k` and the latest content hash `h`. -/
def Lineage (fn : String) (st : DB) (k : ℕ) (h : String) : Prop :=
  ∃ rest d, st.docs = rest ++ [d] ∧ d.filename = fn ∧ d.is_active = true ∧
    d.version = k ∧ d.content_hash = h ∧ d.id + 1 = st.nextId ∧
    ∀ x ∈ rest, x.is_active = false ∧ x.replaced_at.isSome = true ∧
      x.id < d.id

/-- The very first upload of a filename into the empty database yields a
lineage of length 1. -/
lemma Lineage_base (fn : String) (sz now : ℕ) (h : String) :
    Lineage fn (upload_document DB.empty fn h sz now).1 1 h := by
  refine ⟨[],
    ({ id := 0, filename := fn, content_hash := h, file_size := sz,
       version := 1, is_active := true, replaced_at := none,
       prev_version := none } : Doc), ?_, rfl, rfl, rfl, rfl, ?_, ?_⟩
  · simp [upload_document, DB.empty]
  · simp [upload_document, DB.empty]
  · intro x hx
    cases hx

/-- A further upload of the same filename with a fresh hash extends the
lineage by one version. -/
lemma Lineage_step (fn : String) (sz now : ℕ) (st : DB) (k : ℕ)
    (h h' : String) (hL : Lineage fn st k h) (hne : h ≠ h') :
    Lineage fn (upload_document st fn h' sz now).1 (k + 1) h' := by
  obtain ⟨rest, d, hdocs, hfn, hact, hver, hhash, hid, hrest⟩ := hL
  have hfind : st.docs.find? (fun x => x.filename == fn && x.is_active)
      = some d := by
    rw [hdocs, List.find?_append]
    have h1 : rest.find? (fun x => x.filename == fn && x.is_active)
        = none := by
      rw [List.find?_eq_none]
      intro x hx
      simp [(hrest x hx).1]
    rw [h1]
    simp [hfn, hact]
  have hneq : ¬ (d.content_hash = h') := by
    rw [hhash]
    exact hne
  have hdocs' : (upload_document st fn h' sz now).1.docs
      = st.docs.map (deactivateDoc d.id now) ++
        [{ id := st.nextId, filename := fn, content_hash := h',
           file_size := sz, version := d.version + 1, is_active := true,
           replaced_at := none, prev_version := some d.id }] := by
    simp [upload_document, hfind, hneq]
  have hnext' : (upload_document st fn h' sz now).1.nextId
      = st.nextId + 1 := by
    simp [upload_document, hfind, hneq]
  refine ⟨rest.map (deactivateDoc d.id now) ++ [deactivateDoc d.id now d],
    { id := st.nextId, filename := fn, content_hash := h',
      file_size := sz, version := d.version + 1, is_active := true,
      replaced_at := none, prev_version := some d.id },
    ?_, rfl, rfl, by simp [hver], rfl, by rw [hnext'], ?_⟩
  · rw [hdocs', hdocs, List.map_append, List.map_cons, List.map_nil,
      List.append_assoc]
  · intro x hx
    rcases List.mem_append.mp hx with hx | hx
    · rcases List.mem_map.mp hx with ⟨y, hymem, rfl⟩
      obtain ⟨hy1, hy2, hy3⟩ := hrest y hymem
      have hyid : ¬ (y.id = d.id) := by omega
      constructor
      · simp [deactivateDoc, hyid, hy1]
      constructor
      · simp [deactivateDoc, hyid, hy2]
      · simp only [deactivateDoc, beq_iff_eq, if_neg hyid]
        omega
    · simp only [List.mem_singleton] at hx
      subst hx
      refine ⟨by simp [deactivateDoc], by simp [deactivateDoc], ?_⟩
      simp only [deactivateDoc, beq_self_eq_true, if_pos]
      omega

/-- Folding further distinct-hash uploads over a lineage extends it by the
number of uploads. -/
lemma Lineage_fold (fn : String) (sz now : ℕ) :
    ∀ (hashes : List String) (st : DB) (k : ℕ) (h : String),
      Lineage fn st k h → (h :: hashes).Chain' (· ≠ ·) →
      ∃ h', Lineage fn (uploadSeq fn hashes sz now st)
        (k + hashes.length) h' := by
  intro hashes
  induction hashes with
  | nil =>
    intro st k h hL _
    exact ⟨h, by simpa [uploadSeq] using hL⟩
  | cons h1 tl ih =>
    intro st k h hL hch
    rw [List.chain'_cons] at hch
    have hstep := Lineage_step fn sz now st k h h1 hL hch.1
    have hrec := ih (upload_document st fn h1 sz now).1 (k + 1) h1 hstep hch.2
    have harith : k + (h1 :: tl).length = (k + 1) + tl.length := by
      simp
      omega
    rw [harith]
    simpa [uploadSeq] using hrec

/-- Claim C1: (i) every upload preserves the invariant that each filename has
at most one active document (together with primary-key discipline); (ii) a
re-upload of an existing active filename with a different hash reports
`updated` with version `old.version + 1`, leaves no active chunk of the old
document, inserts a new active document referencing the old id, and
deactivates the old document setting `replaced_at`; (iii) `N` successive
uploads of one filename with pairwise-different consecutive hashes, starting
from the empty database, leave a single active document with `version = N`
while every other row is inactive with `replaced_at` set. -/
theorem upload_versioning_spec :
    (∀ (st : DB) (fn h : String) (sz now : ℕ),
       DBInv st → DBInv (upload_document st fn h sz now).1) ∧
    (∀ (st : DB) (fn h : String) (sz now : ℕ) (d : Doc),
       DBInv st → d ∈ st.docs → d.is_active = true → d.filename = fn →
       d.content_hash ≠ h →
       (upload_document st fn h sz now).2
           = .updated st.nextId (d.version + 1) ∧
       (∀ c ∈ (upload_document st fn h sz now).1.chunks,
          c.document_id = d.id → c.is_active = false) ∧
       (∃ nd ∈ (upload_document st fn h sz now).1.docs,
          nd.id = st.nextId ∧ nd.version = d.version + 1 ∧
          nd.is_active = true ∧ nd.prev_version = some d.id ∧
          nd.filename = fn ∧ nd.content_hash = h) ∧
       (∀ x ∈ (upload_document st fn h sz now).1.docs, x.id = d.id →
          x.is_active = false ∧ x.replaced_at = some now)) ∧
    (∀ (fn : String) (hashes : List String) (sz now : ℕ),
       hashes ≠ [] → hashes.Chain' (· ≠ ·) →
       ∃ d ∈ (uploadSeq fn hashes sz now DB.empty).docs,
         d.is_active = true ∧ d.filename = fn ∧
         d.version = hashes.length ∧
         ∀ x ∈ (uploadSeq fn hashes sz now DB.empty).docs, x ≠ d →
           x.is_active = false ∧ x.replaced_at.isSome = true) := by
  refine ⟨DBInv_upload, ?_, ?_⟩
  · intro st fn h sz now d hInv hdmem hdact hdfn hdiff
    have hfind : st.docs.find? (fun x => x.filename == fn && x.is_active)
        = some d :=
      find?_eq_of_unique hdmem (by simp [hdfn, hdact]) (hInv.1 fn)
    have hdocs : (upload_document st fn h sz now).1.docs
        = st.docs.map (deactivateDoc d.id now) ++
          [{ id := st.nextId, filename := fn, content_hash := h,
             file_size := sz, version := d.version + 1, is_active := true,
             replaced_at := none, prev_version := some d.id }] := by
      simp [upload_document, hfind, hdiff]
    have hchunks : (upload_document st fn h sz now).1.chunks
        = st.chunks.map (deactivateChunk d.id now) := by
      simp [upload_document, hfind, hdiff]
    refine ⟨by simp [upload_document, hfind, hdiff], ?_, ?_, ?_⟩
    · intro c hc hcid
      rw [hchunks] at hc
      rcases List.mem_map.mp hc with ⟨c0, hc0mem, rfl⟩
      by_cases hg : (c0.document_id == d.id && c0.is_active) = true
      · simp [deactivateChunk, hg]
      · have hc0 : deactivateChunk d.id now c0 = c0 := by
          simp [deactivateChunk, hg]
        rw [hc0] at hcid ⊢
        simp only [Bool.and_eq_true, beq_iff_eq, not_and] at hg
        rw [Bool.not_eq_true] at hg
        exact hg hcid
    · refine ⟨({ id := st.nextId, filename := fn, content_hash := h,
                 file_size := sz, version := d.version + 1,
                 is_active := true, replaced_at := none,
                 prev_version := some d.id } : Doc),
        ?_, rfl, rfl, rfl, rfl, rfl, rfl⟩
      rw [hdocs]
      exact List.mem_append_right _ (List.mem_singleton.mpr rfl)
    · intro x hx hxid
      rw [hdocs] at hx
      rcases List.mem_append.mp hx with hx | hx
      · rcases List.mem_map.mp hx with ⟨y, hymem, rfl⟩
        by_cases hyid : y.id = d.id
        · constructor <;> simp [deactivateDoc, hyid]
        · exfalso
          have : deactivateDoc d.id now y = y := by
            simp [deactivateDoc, hyid]
          rw [this] at hxid
          exact hyid hxid
      · exfalso
        simp only [List.mem_singleton] at hx
        subst hx
        have := hInv.2.2 d hdmem
        simp at hxid
        omega
  · intro fn hashes sz now hne hch
    cases hashes with
    | nil => exact absurd rfl hne
    | cons h1 tl =>
      have hbase := Lineage_base fn sz now h1
      have hfold := Lineage_fold fn sz now tl
        (upload_document DB.empty fn h1 sz now).1 1 h1 hbase hch
      obtain ⟨h', rest, d, hdocs, hfn, hact, hver, hhash, hid, hrest⟩ := hfold
      have hseq : uploadSeq fn (h1 :: tl) sz now DB.empty
          = uploadSeq fn tl sz now (upload_document DB.empty fn h1 sz now).1
          := rfl
      refine ⟨d, ?_, hact, hfn, ?_, ?_⟩
      · rw [hseq, hdocs]
        exact List.mem_append_right _ (List.mem_singleton.mpr rfl)
      · rw [hver]
        simp only [List.length_cons]
        omega
      · intro x hx hxd
        rw [hseq, hdocs] at hx
        rcases List.mem_append.mp hx with hx | hx
        · exact ⟨(hrest x hx).1, (hrest x hx).2.1⟩
        · simp only [List.mem_singleton] at hx
          exact absurd hx hxd

/-- Witness instantiating `upload_versioning_spec`: three uploads of
`a.txt` with hashes `h1`, `h2`, `h3` leave a single active version-3
document, every other row inactive with `replaced_at` set. -/
theorem upload_versioning_witness :
    ∃ d ∈ (uploadSeq "a.txt" ["h1", "h2", "h3"] 3 5 DB.empty).docs,
      d.is_active = true ∧ d.filename = "a.txt" ∧
      d.version = (["h1", "h2", "h3"] : List String).length ∧
      ∀ x ∈ (uploadSeq "a.txt" ["h1", "h2", "h3"] 3 5 DB.empty).docs,
        x ≠ d → x.is_active = false ∧ x.replaced_at.isSome = true := by
  exact upload_versioning_spec.2.2 "a.txt" ["h1", "h2", "h3"] 3 5
    (by decide) (by simp [List.chain'_cons])

/-! ### Lemmas about the search ranking -/

/-- The comparator used for `sort(key=hybrid_score, reverse=True)` is
transitive. -/
lemma hybridLe_trans (a b c : SearchResult)
    (h1 : decide (b.hybrid_score ≤ a.hybrid_score) = true)
    (h2 : decide (c.hybrid_score ≤ b.hybrid_score) = true) :
    decide (c.hybrid_score ≤ a.hybrid_score) = true := by
  simp only [decide_eq_true_eq] at *
  exact le_trans h2 h1

/-- The comparator used for `sort(key=hybrid_score, reverse=True)` is
total. -/
lemma hybridLe_total (a b : SearchResult) :
    (decide (b.hybrid_score ≤ a.hybrid_score)
      || decide (a.hybrid_score ≤ b.hybrid_score)) = true := by
  simp only [Bool.or_eq_true, decide_eq_true_eq]
  exact le_total b.hybrid_score a.hybrid_score

/-- The primary search's sort really is descending in `hybrid_score`. -/
lemma sortByHybrid_sorted (l : List SearchResult) :
    (sortByHybrid l).Pairwise
      (fun a b => b.hybrid_score ≤ a.hybrid_score) :=
  (List.sorted_mergeSort hybridLe_trans hybridLe_total l).imp
    (fun h => of_decide_eq_true h)

/-- Search result row with similarity 0.9 and recency 0.1 (the spec's worked
example). -/
def exampleRowA : Row :=
  { chunk_id := 1, sim := 9/10, recency := some (1/10), metadataOk := true }

/-- Search result row with similarity 0.2 and recency 0.9 (the spec's worked
example). -/
def exampleRowB : Row :=
  { chunk_id := 2, sim := 2/10, recency := some (9/10), metadataOk := true }

/-- Claim C5: on a cache miss with a successful fetch, every returned result
carries `hybrid_score = similarity * (1 - w) + recency_score * w` when
boosting is on and `hybrid_score = similarity` when it is off; the output is
the descending-by-hybrid-score sort of the surviving candidates truncated to
`topK`; and on the spec's worked example (similarities 0.9/0.2, recencies
0.1/0.9, w = 0.3) the hybrid scores are 0.66 and 0.41, ranking the first row
above the second. -/
theorem semantic_search_ranking_spec :
    (∀ (cache : Cache) (key : String)
       (fetch : ℕ → Except String (List Row)) (topK : ℕ) (boost : Bool)
       (w θ : ℚ) (rows : List Row),
       cacheLookup cache key = none →
       fetch (search_limit topK boost) = .ok rows →
       rows ≠ [] →
       (∀ r ∈ rows, ∃ rc, r.recency = some rc ∧ rc ≠ 0) →
       (∀ res ∈ (semantic_search cache key fetch topK boost w θ).1,
          (boost = true →
            res.hybrid_score
              = res.similarity * (1 - w) + res.recency_score * w) ∧
          (boost = false → res.hybrid_score = res.similarity)) ∧
       (semantic_search cache key fetch topK boost w θ).1.Pairwise
         (fun a b => b.hybrid_score ≤ a.hybrid_score) ∧
       (semantic_search cache key fetch topK boost w θ).1.length ≤ topK ∧
       (semantic_search cache key fetch topK boost w θ).1
         = (sortByHybrid (processRows rows θ boost w)).take topK) ∧
    (hybridScore true (3/10) exampleRowA = 66/100 ∧
     hybridScore true (3/10) exampleRowB = 41/100 ∧
     hybridScore true (3/10) exampleRowB
       < hybridScore true (3/10) exampleRowA) := by
  constructor
  · intro cache key fetch topK boost w θ rows hmiss hfetch hne hrec
    have hempty : rows.isEmpty = false := by
      cases rows with
      | nil => exact absurd rfl hne
      | cons a l => rfl
    have hout : (semantic_search cache key fetch topK boost w θ).1
        = (sortByHybrid (processRows rows θ boost w)).take topK := by
      simp [semantic_search, hmiss, hfetch, hempty]
    refine ⟨?_, ?_, ?_, hout⟩
    · intro res hres
      rw [hout] at hres
      have hres2 : res ∈ sortByHybrid (processRows rows θ boost w) :=
        List.mem_of_mem_take hres
      have hres3 : res ∈ processRows rows θ boost w :=
        List.mem_mergeSort.mp hres2
      rcases List.mem_filterMap.mp hres3 with ⟨r, hrmem, hr⟩
      by_cases h1 : r.sim < θ
      · simp [h1] at hr
      · by_cases h2 : r.metadataOk
        · simp only [if_neg h1, if_pos h2, Option.some.injEq] at hr
          obtain ⟨rc, hrc, hrc0⟩ := hrec r hrmem
          subst hr
          constructor
          · intro hb
            subst hb
            simp [hybridScore, resultRecency, hrc, hrc0]
          · intro hb
            subst hb
            simp [hybridScore, hrc]
        · simp [h1, h2] at hr
    · rw [hout]
      exact List.Pairwise.sublist (List.take_sublist _ _)
        (sortByHybrid_sorted _)
    · rw [hout]
      exact List.length_take_le _ _
  · refine ⟨?_, ?_, ?_⟩
    · norm_num [hybridScore, exampleRowA]
    · norm_num [hybridScore, exampleRowB]
    · norm_num [hybridScore, exampleRowA, exampleRowB]

/-- Witness instantiating `semantic_search_ranking_spec` on the spec's two
worked-example rows with `topK = 10`, boosting on, weight 0.3. -/
theorem semantic_search_ranking_witness :
    (∀ res ∈ (semantic_search [] "salary"
        (fun _ => .ok [exampleRowA, exampleRowB]) 10 true (3/10) 0).1,
       (true = true →
         res.hybrid_score
           = res.similarity * (1 - 3/10) + res.recency_score * (3/10)) ∧
       (true = false → res.hybrid_score = res.similarity)) ∧
    (semantic_search [] "salary"
        (fun _ => .ok [exampleRowA, exampleRowB]) 10 true (3/10) 0).1.Pairwise
      (fun a b => b.hybrid_score ≤ a.hybrid_score) ∧
    (semantic_search [] "salary"
        (fun _ => .ok [exampleRowA, exampleRowB]) 10 true (3/10) 0).1.length
      ≤ 10 ∧
    (semantic_search [] "salary"
        (fun _ => .ok [exampleRowA, exampleRowB]) 10 true (3/10) 0).1
      = (sortByHybrid (processRows [exampleRowA, exampleRowB] 0 true
          (3/10))).take 10 := by
  exact semantic_search_ranking_spec.1 [] "salary" _ 10 true (3/10) 0
    [exampleRowA, exampleRowB] rfl rfl (by simp)
    (by
      intro r hr
      rcases List.mem_cons.mp hr with rfl | hr
      · exact ⟨1/10, rfl, by norm_num⟩
      · rcases List.mem_cons.mp hr with rfl | hr
        · exact ⟨9/10, rfl, by norm_num⟩
        · cases hr)

/-- Claim C6 (amended): the LIMIT handed to the pgvector query is
`topK * 3` only when recency boosting is enabled; with boosting disabled the
vector store is asked for exactly `topK` rows.  In particular a boosted
search with `topK = 5` requests 15 candidates. -/
theorem search_limit_spec :
    (∀ topK : ℕ, search_limit topK true = topK * 3) ∧
    (∀ topK : ℕ, search_limit topK false = topK) ∧
    search_limit 5 true = 15 := by
  refine ⟨fun topK => rfl, fun topK => rfl, rfl⟩

/-- Claim C6 is refuted as stated: a search with `topK = 5` and boosting
disabled queries the vector store for only 5 candidates, not `5 * 3`. -/
theorem search_limit_no_boost_refuted :
    search_limit 5 false = 5 ∧ ¬ search_limit 5 false = 5 * 3 := by
  decide

/-- The cache write keeps the cache within its capacity and, when the cache
is full, drops exactly the earliest-inserted entry. -/
lemma cacheInsert_bound (c : Cache) (k : String) (v : List SearchResult)
    (hc : c.length ≤ 100) :
    (cacheInsert c k v).length ≤ 100 ∧
    (c.length = 100 → cacheInsert c k v = c.tail ++ [(k, v)]) := by
  constructor
  · unfold cacheInsert cache_max_size
    by_cases hfull : (100 : ℕ) ≤ c.length
    · rw [if_pos hfull]
      simp only [List.length_append, List.length_drop,
        List.length_singleton]
      omega
    · rw [if_neg hfull]
      simp only [List.length_append, List.length_singleton]
      omega
  · intro hfull
    unfold cacheInsert cache_max_size
    rw [if_pos (by omega), List.drop_one]

/-- Claim C8: the result cache never exceeds capacity 100 — the write path
evicts the earliest-inserted entry when full, and every `semantic_search`
call (hit, error, empty, or insert) leaves the cache within the bound. -/
theorem search_cache_bound_spec :
    (∀ (c : Cache) (k : String) (v : List SearchResult),
       c.length ≤ 100 →
       (cacheInsert c k v).length ≤ 100 ∧
       (c.length = 100 → cacheInsert c k v = c.tail ++ [(k, v)])) ∧
    (∀ (cache : Cache) (key : String)
       (fetch : ℕ → Except String (List Row)) (topK : ℕ) (boost : Bool)
       (w θ : ℚ),
       cache.length ≤ 100 →
       ((semantic_search cache key fetch topK boost w θ).2).length ≤ 100)
    := by
  refine ⟨cacheInsert_bound, ?_⟩
  intro cache key fetch topK boost w θ hc
  cases hlook : cacheLookup cache key with
  | some v =>
    simpa [semantic_search, hlook] using hc
  | none =>
    cases hf : fetch (search_limit topK boost) with
    | error e =>
      simpa [semantic_search, hlook, hf] using hc
    | ok rows =>
      by_cases hrows : rows.isEmpty
      · simpa [semantic_search, hlook, hf, hrows] using hc
      · have hstep : (semantic_search cache key fetch topK boost w θ).2
            = cacheInsert cache key
                ((sortByHybrid (processRows rows θ boost w)).take topK) := by
          simp [semantic_search, hlook, hf, hrows]
        rw [hstep]
        exact (cacheInsert_bound cache key _ hc).1

/-- Witness instantiating `search_cache_bound_spec`: inserting into an empty
cache keeps it within the bound, and a failed search leaves the empty cache
empty, hence within the bound. -/
theorem search_cache_bound_witness :
    ((cacheInsert [] "q" []).length ≤ 100 ∧
     (([] : Cache).length = 100 →
       cacheInsert [] "q" [] = ([] : Cache).tail ++ [("q", [])])) ∧
    ((semantic_search [] "q" (fun _ => .error "down") 5 true (3/10) 0).2
      ).length ≤ 100 := by
  constructor
  · exact search_cache_bound_spec.1 [] "q" [] (by decide)
  · exact search_cache_bound_spec.2 [] "q" (fun _ => .error "down") 5 true
      (3/10) 0 (by decide)

/-- Descending lexicographic order on `(similarity, recency_score)` as a
proposition. -/
def lexGe (a b : FilteredResult) : Prop :=
  b.similarity < a.similarity ∨
    (a.similarity = b.similarity ∧ b.recency_score ≤ a.recency_score)

/-- `lexGeBool` decides `lexGe`. -/
lemma lexGeBool_iff (a b : FilteredResult) :
    lexGeBool a b = true ↔ lexGe a b := by
  simp [lexGeBool, lexGe]

/-- The tuple comparator is transitive. -/
lemma lexGeBool_trans (a b c : FilteredResult)
    (h1 : lexGeBool a b = true) (h2 : lexGeBool b c = true) :
    lexGeBool a c = true := by
  rw [lexGeBool_iff] at *
  rcases h1 with h1 | ⟨h1, hr1⟩
  · rcases h2 with h2 | ⟨h2, hr2⟩
    · exact Or.inl (lt_trans h2 h1)
    · exact Or.inl (h2 ▸ h1)
  · rcases h2 with h2 | ⟨h2, hr2⟩
    · exact Or.inl (by rw [h1]; exact h2)
    · exact Or.inr ⟨h1.trans h2, le_trans hr2 hr1⟩

/-- The tuple comparator is total. -/
lemma lexGeBool_total (a b : FilteredResult) :
    (lexGeBool a b || lexGeBool b a) = true := by
  simp only [Bool.or_eq_true, lexGeBool_iff, lexGe]
  rcases lt_trichotomy b.similarity a.similarity with h | h | h
  · exact Or.inl (Or.inl h)
  · rcases le_total b.recency_score a.recency_score with hr | hr
    · exact Or.inl (Or.inr ⟨h.symm, hr⟩)
    · exact Or.inr (Or.inr ⟨h, hr⟩)
  · exact Or.inr (Or.inl h)

/-- A row whose tuple rank and hybrid rank disagree: similarity 0.5 but low
recency 0.1. -/
def exampleRowX : Row :=
  { chunk_id := 3, sim := 1/2, recency := some (1/10), metadataOk := true }

/-- A row whose tuple rank and hybrid rank disagree: similarity 0.4 but high
recency 0.9. -/
def exampleRowY : Row :=
  { chunk_id := 4, sim := 2/5, recency := some (9/10), metadataOk := true }

/-- The filtered result built from `exampleRowX`. -/
def exampleFilteredX : FilteredResult :=
  { chunk_id := 3, similarity := 1/2, recency_score := 1/10 }

/-- The filtered result built from `exampleRowY`. -/
def exampleFilteredY : FilteredResult :=
  { chunk_id := 4, similarity := 2/5, recency_score := 9/10 }

/-- Claim C9: the filtered variant returns the descending lexicographic
`(similarity, recency_score)` sort of its built results truncated to `topK`
— not the hybrid blend: on the example rows the tuple order ranks X before Y
while the hybrid score of X is strictly below that of Y. -/
theorem filtered_search_order_spec :
    (∀ (fetch : ℕ → Except String (List Row)) (topK : ℕ)
       (rows : List Row),
       fetch (topK * 3) = .ok rows →
       (∀ r ∈ rows, r.metadataOk = true) →
       semantic_search_with_filters fetch topK
         = ((rows.map (fun r =>
              ({ chunk_id := r.chunk_id, similarity := r.sim,
                 recency_score := resultRecency r } : FilteredResult))
            ).mergeSort lexGeBool).take topK ∧
       (semantic_search_with_filters fetch topK).Pairwise lexGe ∧
       (semantic_search_with_filters fetch topK).length ≤ topK) ∧
    (lexGeBool exampleFilteredX exampleFilteredY = true ∧
     hybridScore true (3/10) exampleRowX
       < hybridScore true (3/10) exampleRowY) := by
  constructor
  · intro fetch topK rows hf hall
    have hallb : rows.all (fun r => r.metadataOk) = true :=
      List.all_eq_true.mpr hall
    have hout : semantic_search_with_filters fetch topK
        = ((rows.map (fun r =>
            ({ chunk_id := r.chunk_id, similarity := r.sim,
               recency_score := resultRecency r } : FilteredResult))
          ).mergeSort lexGeBool).take topK := by
      simp [semantic_search_with_filters, hf, hallb]
    refine ⟨hout, ?_, ?_⟩
    · rw [hout]
      exact List.Pairwise.sublist (List.take_sublist _ _)
        ((List.sorted_mergeSort lexGeBool_trans lexGeBool_total _).imp
          (fun h => (lexGeBool_iff _ _).mp h))
    · rw [hout]
      exact List.length_take_le _ _
  · constructor
    · rw [lexGeBool_iff]
      exact Or.inl (by norm_num [exampleFilteredX, exampleFilteredY])
    · norm_num [hybridScore, exampleRowX, exampleRowY]

/-- Witness instantiating `filtered_search_order_spec` on the two example
rows with `topK = 10`. -/
theorem filtered_search_order_witness :
    semantic_search_with_filters
        (fun _ => .ok [exampleRowX, exampleRowY]) 10
      = ((([exampleRowX, exampleRowY]).map (fun r =>
           ({ chunk_id := r.chunk_id, similarity := r.sim,
              recency_score := resultRecency r } : FilteredResult))
         ).mergeSort lexGeBool).take 10 ∧
    (semantic_search_with_filters
        (fun _ => .ok [exampleRowX, exampleRowY]) 10).Pairwise lexGe ∧
    (semantic_search_with_filters
        (fun _ => .ok [exampleRowX, exampleRowY]) 10).length ≤ 10 := by
  exact filtered_search_order_spec.1 (fun _ => .ok [exampleRowX, exampleRowY])
    10 [exampleRowX, exampleRowY] rfl (by decide)

/-- A fetched row whose per-row Python processing raises. -/
def rowBad : Row :=
  { chunk_id := 7, sim := 1/2, recency := some (1/2), metadataOk := false }

/-- A fetched row whose per-row Python processing succeeds. -/
def rowGood : Row :=
  { chunk_id := 8, sim := 1/2, recency := some (1/2), metadataOk := true }

/-- Claim C10 is refuted as stated: when result construction raises for one
row, the primary search does not return the empty list — the inner per-row
handler skips the failing row and the remaining results are returned. -/
theorem search_row_error_refuted :
    (semantic_search [] "k" (fun _ => .ok [rowBad, rowGood]) 10 true
      (3/10) 0).1 ≠ [] := by
  have hout : (semantic_search [] "k" (fun _ => .ok [rowBad, rowGood]) 10
      true (3/10) 0).1
      = (sortByHybrid (processRows [rowBad, rowGood] 0 true (3/10))).take 10
      := rfl
  have hpr : processRows [rowBad, rowGood] 0 true (3/10)
      = [{ chunk_id := 8, similarity := 1/2, recency_score := 1/2,
           hybrid_score := 1/2 }] := by
    norm_num [processRows, rowBad, rowGood, resultRecency, hybridScore,
      List.filterMap_cons, List.filterMap_nil]
  intro hcontra
  rw [hout, hpr] at hcontra
  have hlen := congrArg List.length hcontra
  rw [List.length_take, sortByHybrid, List.length_mergeSort] at hlen
  simp at hlen

/-- Claim C10 (amended): a failure of query embedding or of the vector-store
query makes the primary search return `[]` without writing a cache entry,
and makes the filtered search return `[]`; a per-row construction failure
also empties the filtered search (it has no inner handler), but the primary
search merely skips the failing rows — it processes exactly the
well-behaved rows. -/
theorem search_error_handling_spec :
    (∀ (cache : Cache) (key : String)
       (fetch : ℕ → Except String (List Row)) (topK : ℕ) (boost : Bool)
       (w θ : ℚ) (e : String),
       cacheLookup cache key = none →
       fetch (search_limit topK boost) = .error e →
       semantic_search cache key fetch topK boost w θ = ([], cache)) ∧
    (∀ (fetch : ℕ → Except String (List Row)) (topK : ℕ) (e : String),
       fetch (topK * 3) = .error e →
       semantic_search_with_filters fetch topK = []) ∧
    (∀ (fetch : ℕ → Except String (List Row)) (topK : ℕ)
       (rows : List Row) (r : Row),
       fetch (topK * 3) = .ok rows → r ∈ rows → r.metadataOk = false →
       semantic_search_with_filters fetch topK = []) ∧
    (∀ (rows : List Row) (θ w : ℚ) (boost : Bool),
       processRows rows θ boost w
         = processRows (rows.filter (fun r => r.metadataOk)) θ boost w)
    := by
  refine ⟨?_, ?_, ?_, ?_⟩
  · intro cache key fetch topK boost w θ e hmiss herr
    simp [semantic_search, hmiss, herr]
  · intro fetch topK e herr
    simp [semantic_search_with_filters, herr]
  · intro fetch topK rows r hf hr hbad
    have hall : rows.all (fun x => x.metadataOk) = false := by
      rw [List.all_eq_false]
      exact ⟨r, hr, by simp [hbad]⟩
    simp [semantic_search_with_filters, hf, hall]
  · intro rows θ w boost
    induction rows with
    | nil => rfl
    | cons r rs ih =>
      unfold processRows at ih ⊢
      by_cases hm : r.metadataOk
      · rw [List.filter_cons_of_pos hm, List.filterMap_cons,
          List.filterMap_cons, ih]
      · rw [List.filter_cons_of_neg (by simp [hm]), List.filterMap_cons]
        simp only [hm, Bool.false_eq_true, if_false, ite_self]
        exact ih

/-- Witness instantiating `search_error_handling_spec`: a failed fetch
empties both search paths (and writes no cache entry), and a
construction-failing row empties the filtered search. -/
theorem search_error_handling_witness :
    semantic_search [] "q" (fun _ => .error "boom") 5 true (3/10) 0
      = ([], []) ∧
    semantic_search_with_filters (fun _ => .error "boom") 5 = [] ∧
    semantic_search_with_filters (fun _ => .ok [rowBad]) 5 = [] := by
  refine ⟨?_, ?_, ?_⟩
  · exact search_error_handling_spec.1 [] "q" (fun _ => .error "boom") 5
      true (3/10) 0 "boom" rfl rfl
  · exact search_error_handling_spec.2.1 (fun _ => .error "boom") 5 "boom"
      rfl
  · exact search_error_handling_spec.2.2.1 (fun _ => .ok [rowBad]) 5
      [rowBad] rowBad rfl (List.mem_singleton.mpr rfl) rfl
